/-
Verification of `locator/abstract_replication_strategy.cc` (replica
placement core: endpoint cache, replacement filter, range algebra with
wraparound unwrapping, pending-range simulation, replication-factor
validation).

The C++ code is shallowly embedded below.  Tokens (`dht::token`) are a
totally ordered value type and are modelled as `Int`; node addresses
(`gms::inet_address`) are opaque hashable identifiers modelled as `Nat`.
The pluggable placement policy (`calculate_natural_endpoints`, a pure
virtual) is a function parameter `cne`.  The externally owned ring
snapshot (`token_metadata`, repository code not under the sources given
here) is modelled from the spec.
-/
import Mathlib

/-- Tokens are a totally ordered value type (`dht::token`). -/
abbrev Token := Int

/-- Node addresses (`gms::inet_address`), opaque identifiers with equality. -/
abbrev Address := Nat

/-- A `dht::token_range`: half-open interval with an exclusive start bound and
an inclusive end bound, either of which may be absent (unbounded):
`start = none` means `-infinity`, `last = none` means `+infinity`. -/
structure TokenRange where
  start : Option Token
  last : Option Token
deriving DecidableEq, Repr

/-- Modelled from the spec: the Ring Snapshot (`locator::token_metadata`,
repository code not under the given sources).  It owns a sorted collection of
token-to-address mappings, a ring version counter bumped on every mutation,
and the set of addresses currently being replaced. -/
structure TokenMetadata where
  tokens : List (Token × Address)
  ring_version : Nat
  replacing : List Address
deriving DecidableEq, Repr

/-- Modelled from the spec: sorted-token iteration of the ring snapshot. -/
def TokenMetadata.sorted_tokens (tm : TokenMetadata) : List Token :=
  tm.tokens.map Prod.fst

/-- Modelled from the spec: `token_metadata::first_token(search_token)` — the
smallest ring token at or after the search token, wrapping to the smallest
token overall if none is at or after it. -/
def TokenMetadata.first_token (tm : TokenMetadata) (t : Token) : Token :=
  match tm.sorted_tokens.find? (fun k => decide (t ≤ k)) with
  | some k => k
  | none => tm.sorted_tokens.headD 0

/-- Modelled from the spec: whether an address is currently being replaced. -/
def TokenMetadata.is_being_replaced (tm : TokenMetadata) (a : Address) : Bool :=
  tm.replacing.contains a

/-- Modelled from the spec: whether any node is currently being replaced. -/
def TokenMetadata.is_any_node_being_replaced (tm : TokenMetadata) : Bool :=
  !tm.replacing.isEmpty

/-- Modelled from the spec: `token_metadata::clone_only_token_map` — a clone
holding only the token map; version counter and replacement bookkeeping are
left default. -/
def TokenMetadata.clone_only_token_map (tm : TokenMetadata) : TokenMetadata :=
  ⟨tm.tokens, 0, []⟩

/-- Insert one token-to-address mapping into a sorted token map, replacing an
existing mapping for an equal token. -/
def insert_token (tokens : List (Token × Address)) (t : Token) (a : Address) :
    List (Token × Address) :=
  match tokens with
  | [] => [(t, a)]
  | (t1, a1) :: rest =>
    if t < t1 then (t, a) :: (t1, a1) :: rest
    else if t = t1 then (t, a) :: rest
    else (t1, a1) :: insert_token rest t a

/-- Modelled from the spec: `token_metadata::update_normal_tokens` — insert
the given tokens mapped to the given address into the token map. -/
def TokenMetadata.update_normal_tokens (tm : TokenMetadata)
    (pending_tokens : List Token) (a : Address) : TokenMetadata :=
  { tm with tokens := pending_tokens.foldl (fun acc t => insert_token acc t a) tm.tokens }

/-- The last element of a nonempty token list `t :: ts`
(`sorted_tokens().back()` on a nonempty ring). -/
def lastToken : Token → List Token → Token
  | t, [] => t
  | _, t :: ts => lastToken t ts

/-- Modelled from the spec: `token_metadata::get_primary_ranges_for(t)` — the
per-token primary range `(pred t, t]`, split into the two unbounded pieces
when it crosses the wrap point. -/
def TokenMetadata.get_primary_ranges_for (tm : TokenMetadata) (t : Token) :
    List TokenRange :=
  match tm.sorted_tokens with
  | [] => []
  | t1 :: ts =>
    let prev :=
      match (tm.sorted_tokens.filter (fun k => decide (k < t))).getLast? with
      | some p => p
      | none => lastToken t1 ts
    if prev < t then [⟨some prev, some t⟩] else [⟨none, some t⟩, ⟨some prev, none⟩]

/-- The mutable per-strategy state of `abstract_replication_strategy`: the
endpoint cache keyed by bucket token, the ring version at the last wholesale
invalidation, and the cache-hit counter. -/
structure Strategy where
  cached_endpoints : List (Token × List Address)
  last_invalidated_ring_version : Nat
  cache_hits_count : Nat
deriving DecidableEq, Repr

/-- `abstract_replication_strategy::get_cached_endpoints` (lines 129-137):
clear the whole cache and record the new ring version whenever the recorded
version differs from the ring's current version. -/
def get_cached_endpoints (tm : TokenMetadata) (s : Strategy) : Strategy :=
  if s.last_invalidated_ring_version ≠ tm.ring_version then
    { s with cached_endpoints := [], last_invalidated_ring_version := tm.ring_version }
  else s

/-- `abstract_replication_strategy::get_natural_endpoints` (lines 76-90):
look the bucket key `first_token(search_token)` up in the (freshly
invalidated-if-stale) cache; on a miss compute the endpoints with the
placement policy and cache them under the bucket key; on a hit bump the hit
counter and return the cached list.  Returns the endpoint list together with
the updated strategy state. -/
def get_natural_endpoints (cne : Token → TokenMetadata → List Address)
    (tm : TokenMetadata) (s : Strategy) (search_token : Token) :
    List Address × Strategy :=
  match (get_cached_endpoints tm s).cached_endpoints.lookup (tm.first_token search_token) with
  | none =>
    (cne search_token tm,
     { get_cached_endpoints tm s with
       cached_endpoints :=
         (tm.first_token search_token, cne search_token tm)
           :: (get_cached_endpoints tm s).cached_endpoints })
  | some eps =>
    (eps,
     { get_cached_endpoints tm s with
       cache_hits_count := (get_cached_endpoints tm s).cache_hits_count + 1 })

/-- `abstract_replication_strategy::get_natural_endpoints_without_node_being_replaced`
(lines 92-113): take the natural endpoints and, only when some node is being
replaced and the policy opts in (`allow_remove` models the virtual
`allow_remove_node_being_replaced_from_natural_endpoints`), erase every
being-replaced address (the `boost::range::remove_if` / `erase` idiom, which
keeps the surviving elements in their original relative order).  The cache
state is that of the inner `get_natural_endpoints` call. -/
def get_natural_endpoints_without_node_being_replaced
    (cne : Token → TokenMetadata → List Address) (allow_remove : Bool)
    (tm : TokenMetadata) (s : Strategy) (search_token : Token) :
    List Address × Strategy :=
  if tm.is_any_node_being_replaced && allow_remove then
    ((get_natural_endpoints cne tm s search_token).1.filter
        (fun p => !(tm.is_being_replaced p)),
     (get_natural_endpoints cne tm s search_token).2)
  else
    get_natural_endpoints cne tm s search_token

/-- Numeric value of a decimal-digit string, most significant digit first
(the value `std::stol` computes on an all-digit string). -/
def digits_val (rf : List Char) : Nat :=
  rf.foldl (fun n c => n * 10 + (c.toNat - 48)) 0

/-- `LONG_MAX` on the LP64 target: `std::stol` returns `long`. -/
def long_max : Nat := 2 ^ 63 - 1

/-- `std::stol` applied to a nonempty all-digit string succeeds exactly when
the value fits in `long`; otherwise it throws `out_of_range`. -/
def stol_succeeds (rf : List Char) : Bool :=
  digits_val rf ≤ long_max

/-- `abstract_replication_strategy::validate_replication_factor` (lines
115-127): reject (throw `configuration_exception`) if the string is empty or
any character is not a decimal digit (C `isdigit`, "C" locale), then reject
if `std::stol` throws; `true` means the string is accepted. -/
def validate_replication_factor (rf : List Char) : Bool :=
  if rf.isEmpty || rf.any (fun c => !c.isDigit) then false
  else stol_succeeds rf

/-- `insert_token_range_to_sorted_container_while_unwrapping` (lines
139-167): a bounded range `(prev_tok, tok]` is inserted at the end, or one
position before the trailing `(a, +infinity)` piece if such a piece was
emitted earlier; a wrapped range is split into `(-infinity, tok]` (put in
front) and `(prev_tok, +infinity)` (appended at the end). -/
def insert_token_range_to_sorted_container_while_unwrapping
    (prev_tok tok : Token) (ret : List TokenRange) : List TokenRange :=
  if prev_tok < tok then
    match ret.getLast? with
    | some lastr =>
      if lastr.last = none then
        ret.dropLast ++ [⟨some prev_tok, some tok⟩, lastr]
      else
        ret ++ [⟨some prev_tok, some tok⟩]
    | none => ret ++ [⟨some prev_tok, some tok⟩]
  else
    ⟨none, some tok⟩ :: (ret ++ [⟨some prev_tok, none⟩])

/-- One iteration of the token loop shared by `get_ranges`,
`get_primary_ranges` and `get_primary_ranges_within_dc`: the state is
`(prev_tok, ret)`; the range is emitted when the per-token predicate holds,
and `prev_tok` advances to the current token regardless. -/
def scan_step (emit : Token → Bool) (acc : Token × List TokenRange)
    (tok : Token) : Token × List TokenRange :=
  (tok,
   if emit tok then
     insert_token_range_to_sorted_container_while_unwrapping acc.1 tok acc.2
   else acc.2)

/-- The token loop of the range algebra: iterate the sorted tokens with
`prev_tok` initialised to the last (highest) token. -/
def range_scan (emit : Token → Bool) (back_tok : Token) (toks : List Token) :
    List TokenRange :=
  (toks.foldl (scan_step emit) (back_tok, ([] : List TokenRange))).2

/-- `abstract_replication_strategy::get_ranges` (lines 174-188): emit
`(prev, tok]` for every token whose natural endpoints contain `ep`.  On an
empty ring the C++ reads `sorted_tokens().back()` out of bounds, so the
result is undefined; that case is modelled as `none`. -/
def get_ranges (cne : Token → TokenMetadata → List Address) (ep : Address)
    (tm : TokenMetadata) : Option (List TokenRange) :=
  match tm.sorted_tokens with
  | [] => none
  | t1 :: ts =>
    some (range_scan (fun tok => (cne tok tm).contains ep) (lastToken t1 ts) (t1 :: ts))

/-- `abstract_replication_strategy::get_primary_ranges` (lines 190-202): emit
`(prev, tok]` only when the endpoint list is nonempty and its first entry is
`ep`.  Empty ring modelled as `none` as in `get_ranges`. -/
def get_primary_ranges (cne : Token → TokenMetadata → List Address)
    (ep : Address) (tm : TokenMetadata) : Option (List TokenRange) :=
  match tm.sorted_tokens with
  | [] => none
  | t1 :: ts =>
    some (range_scan (fun tok => (cne tok tm).head? == some ep) (lastToken t1 ts) (t1 :: ts))

/-- `abstract_replication_strategy::get_address_ranges` (lines 228-242): for
every token, pair every natural endpoint with every piece of the token's
primary range (the multimap is modelled as a list of pairs). -/
def get_address_ranges (cne : Token → TokenMetadata → List Address)
    (tm : TokenMetadata) : List (Address × TokenRange) :=
  tm.sorted_tokens.flatMap (fun t =>
    (cne t tm).flatMap (fun ep =>
      (tm.get_primary_ranges_for t).map (fun r => (ep, r))))

/-- `abstract_replication_strategy::get_pending_address_ranges` (lines
262-273): clone only the token map, insert the pending tokens mapped to the
pending address into the clone, and collect the ranges attributed to the
pending address in the simulated ring.  The function returns the live ring
alongside the result, making explicit that the live ring is what the caller
still holds after the call. -/
def get_pending_address_ranges (cne : Token → TokenMetadata → List Address)
    (tm : TokenMetadata) (pending_tokens : List Token)
    (pending_address : Address) : List TokenRange × TokenMetadata :=
  (((get_address_ranges cne
        ((tm.clone_only_token_map).update_normal_tokens pending_tokens pending_address)).filter
      (fun x => x.1 == pending_address)).map Prod.snd,
   tm)

/-! ### Specification-side notions used by the theorems -/

/-- Cache validity: whenever the recorded invalidation version matches the
ring's current version, every cached entry holds the placement policy's
output for its key token on the current ring. -/
def CacheValid (cne : Token → TokenMetadata → List Address)
    (tm : TokenMetadata) (s : Strategy) : Prop :=
  s.last_invalidated_ring_version = tm.ring_version →
    ∀ k v, (k, v) ∈ s.cached_endpoints → v = cne k tm

/-- Strict order on start bounds: `-infinity` (`none`) precedes every bounded
start, and bounded starts compare by token order. -/
def startLt (o1 o2 : Option Token) : Prop :=
  match o1, o2 with
  | none, some _ => True
  | some a, some b => a < b
  | _, none => False

/-- A range collection is sorted by start bound. -/
def RangeListSorted (l : List TokenRange) : Prop :=
  l.Chain' (fun a b => startLt a.start b.start)

/-- Whenever a range collection contains an unbounded piece, it consists of
the `(-infinity, e]` piece first, then only bounded pieces, then the
`(s, +infinity)` piece last. -/
def WrapShape (l : List TokenRange) : Prop :=
  (∃ r ∈ l, r.start = none ∨ r.last = none) →
    ∃ e s mid, l = ⟨none, some e⟩ :: (mid ++ [⟨some s, none⟩]) ∧
      ∀ r ∈ mid, r.start ≠ none ∧ r.last ≠ none

/-- Whether a token `x` lies in a range (exclusive start, inclusive end,
missing bound unbounded). -/
def containsTok (r : TokenRange) (x : Token) : Bool :=
  (match r.start with
   | none => true
   | some p => decide (p < x)) &&
  (match r.last with
   | none => true
   | some t => decide (x ≤ t))

/-- How many ranges of a collection contain the token `x`. -/
def coverCount (l : List TokenRange) (x : Token) : Nat :=
  l.countP (fun r => containsTok r x)

/-- The bounded ranges `(prev, t]` emitted for the tokens after the first
one, in iteration order. -/
def boundedRanges (prev : Token) (emit : Token → Bool) :
    List Token → List TokenRange
  | [] => []
  | t :: ts => (if emit t then [⟨some prev, some t⟩] else []) ++ boundedRanges t emit ts

/-- Number of consecutive pairs `(p, t)` with `t` emitted whose interval
`(p, t]` contains `x`. -/
def adjCovered (emit : Token → Bool) (x : Token) : Token → List Token → Nat
  | _, [] => 0
  | p, t :: ts =>
    (if emit t = true ∧ p < x ∧ x ≤ t then 1 else 0) + adjCovered emit x t ts

/-! ### Concrete rings and policies used in examples and witnesses -/

/-- Single-replica placement: the natural endpoint of a ring token is its
owner in the token map. -/
def owner_policy (t : Token) (tm : TokenMetadata) : List Address :=
  match tm.tokens.lookup t with
  | some a => [a]
  | none => []

/-- A policy that distinguishes tokens inside one bucket (legitimate per the
spec's policy interface, which only requires determinism). -/
def bad_policy (t : Token) (_ : TokenMetadata) : List Address :=
  [t.natAbs]

/-- A policy with a constant two-replica answer. -/
def pair_policy (_ : Token) (_ : TokenMetadata) : List Address :=
  [0, 1]

/-- A policy that returns no endpoints at all. -/
def empty_policy (_ : Token) (_ : TokenMetadata) : List Address :=
  []

/-- The three-token ring of the spec's wraparound example: tokens 10, 50, 90
owned by distinct nodes 0, 1, 2. -/
def tm_ring : TokenMetadata := ⟨[(10, 0), (50, 1), (90, 2)], 1, []⟩

/-- A one-token ring at version 5. -/
def tm_one : TokenMetadata := ⟨[(10, 0)], 5, []⟩

/-- An empty ring. -/
def tm_empty : TokenMetadata := ⟨[], 0, []⟩

/-- A two-token ring at version 6. -/
def tm_two : TokenMetadata := ⟨[(10, 0), (50, 1)], 6, []⟩

/-- A one-token ring whose owner, node 0, is being replaced. -/
def tm_repl : TokenMetadata := ⟨[(10, 0)], 1, [0]⟩

/-- A fresh strategy state recorded at ring version `v`. -/
def fresh_strategy (v : Nat) : Strategy := ⟨[], v, 0⟩

/-- A strategy state holding a garbage entry recorded under the old ring
version 5. -/
def stale_strategy : Strategy := ⟨[(10, [99])], 5, 7⟩

/-! ### Helper lemmas -/

theorem lookup_mem {α β : Type} [BEq α] [LawfulBEq α]
    (l : List (α × β)) (k : α) (v : β) (h : l.lookup k = some v) : (k, v) ∈ l := by
  induction l with
  | nil => simp [List.lookup] at h
  | cons p rest ih =>
    rw [List.lookup] at h
    by_cases hk : (k == p.1) = true
    · rw [hk] at h
      have hk1 : k = p.1 := eq_of_beq hk
      have hv : v = p.2 := by cases h; rfl
      have hp : (k, v) = p := by rw [hk1, hv]
      rw [hp]
      exact List.mem_cons_self _ _
    · rw [Bool.not_eq_true] at hk
      rw [hk] at h
      exact List.mem_cons_of_mem _ (ih h)

theorem get_cached_endpoints_version (tm : TokenMetadata) (s : Strategy) :
    (get_cached_endpoints tm s).last_invalidated_ring_version = tm.ring_version := by
  unfold get_cached_endpoints
  by_cases h : s.last_invalidated_ring_version = tm.ring_version <;> simp [h]

theorem get_cached_endpoints_valid (cne : Token → TokenMetadata → List Address)
    (tm : TokenMetadata) (s : Strategy) (hvalid : CacheValid cne tm s) :
    ∀ k v, (k, v) ∈ (get_cached_endpoints tm s).cached_endpoints → v = cne k tm := by
  intro k v hkv
  unfold get_cached_endpoints at hkv
  by_cases h : s.last_invalidated_ring_version = tm.ring_version
  · simp only [h, ne_eq, not_true_eq_false, if_false] at hkv
    exact hvalid h k v hkv
  · simp [h] at hkv

/-! ### C1: cache freshness -/

/-- C1 counterexample (claim C1): the claim fails as stated.  With a
deterministic policy that distinguishes two search tokens of the same bucket
(key token 10 covers both 5 and 7 on the one-token ring), the second lookup
returns the list cached for the first search token, not what the policy
would compute fresh for the second one — even though the ring version never
changed. -/
theorem get_natural_endpoints_stale_bucket_reuse :
    (get_natural_endpoints bad_policy tm_one
        (get_natural_endpoints bad_policy tm_one (fresh_strategy 5) 5).2 7).1 ≠
      bad_policy 7 tm_one := by decide

/-- C1 (amended): provided the placement policy's endpoint list depends on
the search token only through its bucket key `first_token` (true of real
placement policies, whose output is a function of the ring position), and
the cache state is valid for the current ring version, `get_natural_endpoints`
returns exactly what `calculate_natural_endpoints` computes fresh on the
current ring snapshot, and cache validity is preserved.  Because `CacheValid`
holds vacuously whenever the recorded version differs from the ring's
current version, any ring-version-incrementing mutation makes every
previously cached list unusable and forces a fresh computation. -/
theorem get_natural_endpoints_fresh (cne : Token → TokenMetadata → List Address)
    (tm : TokenMetadata) (s : Strategy) (t : Token)
    (hbucket : ∀ u : Token, cne u tm = cne (tm.first_token u) tm)
    (hvalid : CacheValid cne tm s) :
    (get_natural_endpoints cne tm s t).1 = cne t tm ∧
      CacheValid cne tm (get_natural_endpoints cne tm s t).2 := by
  have hmem := get_cached_endpoints_valid cne tm s hvalid
  unfold get_natural_endpoints
  cases hfind : (get_cached_endpoints tm s).cached_endpoints.lookup (tm.first_token t) with
  | none =>
    simp only [hfind]
    refine ⟨by simp, ?_⟩
    intro _ k v hkv
    rcases List.mem_cons.mp hkv with hkv | hkv
    · have hk : k = tm.first_token t := congrArg Prod.fst hkv
      have hv : v = cne t tm := congrArg Prod.snd hkv
      rw [hv, hk]
      exact hbucket t
    · exact hmem k v hkv
  | some eps =>
    simp only [hfind]
    have heps : eps = cne (tm.first_token t) tm :=
      hmem _ _ (lookup_mem _ _ _ hfind)
    refine ⟨?_, ?_⟩
    · rw [heps, ← hbucket t]
    · intro _ k v hkv
      exact hmem k v hkv

/-- C1 witness: a concrete lookup after a ring-version change.  The strategy
still holds a garbage entry recorded under the old version 5 while the ring
is at version 6, so cache validity holds vacuously; the theorem yields the
fresh policy answer and a valid cache. -/
theorem get_natural_endpoints_fresh_witness :
    (get_natural_endpoints pair_policy tm_two stale_strategy 20).1 =
        pair_policy 20 tm_two ∧
      CacheValid pair_policy tm_two
        (get_natural_endpoints pair_policy tm_two stale_strategy 20).2 :=
  get_natural_endpoints_fresh pair_policy tm_two stale_strategy 20
    (fun _ => rfl) (fun h => absurd h (by decide))

/-! ### C3: the concrete wraparound example -/

/-- C3 (claim C3): on the ring with tokens 10 < 50 < 90 owned by the
distinct nodes 0, 1, 2 under single-replica placement, the range
computation for node 0 (owner of token 10) yields exactly the two pieces
`(-infinity, 10]` and `(90, +infinity)`, in that order, for both
`get_ranges` and `get_primary_ranges`. -/
theorem get_ranges_wrap_example :
    get_ranges owner_policy 0 tm_ring =
        some [⟨none, some 10⟩, ⟨some 90, none⟩] ∧
      get_primary_ranges owner_policy 0 tm_ring =
        some [⟨none, some 10⟩, ⟨some 90, none⟩] := by decide

/-! ### C4 and C10: the replacement filter -/

/-- C4 (claim C4): `get_natural_endpoints_without_node_being_replaced`
never touches the cache beyond what the inner `get_natural_endpoints` call
does; when some node is being replaced and the policy opts in, the returned
addresses are exactly the natural endpoints that are not being replaced
(every being-replaced address is removed); in every other case the
unfiltered natural endpoints are returned unchanged. -/
theorem get_natural_endpoints_replacement_filter
    (cne : Token → TokenMetadata → List Address) (allow_remove : Bool)
    (tm : TokenMetadata) (s : Strategy) (t : Token) :
    (get_natural_endpoints_without_node_being_replaced cne allow_remove tm s t).2 =
        (get_natural_endpoints cne tm s t).2 ∧
      (tm.is_any_node_being_replaced = true → allow_remove = true →
        ∀ a : Address,
          a ∈ (get_natural_endpoints_without_node_being_replaced cne allow_remove tm s t).1 ↔
            (a ∈ (get_natural_endpoints cne tm s t).1 ∧
              tm.is_being_replaced a = false)) ∧
      (¬(tm.is_any_node_being_replaced = true ∧ allow_remove = true) →
        (get_natural_endpoints_without_node_being_replaced cne allow_remove tm s t).1 =
          (get_natural_endpoints cne tm s t).1) := by
  unfold get_natural_endpoints_without_node_being_replaced
  by_cases hc : (tm.is_any_node_being_replaced && allow_remove) = true
  · rw [if_pos hc]
    refine ⟨rfl, ?_, ?_⟩
    · intro _ _ a
      simp [List.mem_filter, Bool.not_eq_true']
    · intro hne
      exact absurd (Bool.and_eq_true _ _ |>.mp hc) (by simpa using hne)
  · rw [if_neg hc]
    refine ⟨rfl, ?_, fun _ => rfl⟩
    intro h1 h2
    exact absurd (by rw [h1, h2]; rfl) hc

/-- C4 witness: on the one-token ring whose owner 0 is being replaced, with
a policy answering `[0, 1]`, the filtered lookup returns `[1]` (node 0
omitted) while the unfiltered lookup still returns `[0, 1]`. -/
theorem get_natural_endpoints_replacement_filter_witness :
    (∀ a : Address,
        a ∈ (get_natural_endpoints_without_node_being_replaced pair_policy true
                tm_repl (fresh_strategy 1) 10).1 ↔
          (a ∈ (get_natural_endpoints pair_policy tm_repl (fresh_strategy 1) 10).1 ∧
            tm_repl.is_being_replaced a = false)) ∧
      (get_natural_endpoints_without_node_being_replaced pair_policy true
          tm_repl (fresh_strategy 1) 10).1 = [1] ∧
      (get_natural_endpoints pair_policy tm_repl (fresh_strategy 1) 10).1 = [0, 1] :=
  ⟨(get_natural_endpoints_replacement_filter pair_policy true tm_repl
      (fresh_strategy 1) 10).2.1 (by decide) rfl, by decide, by decide⟩

/-- C10 (claim C10): when the replacement filter applies, the result is
exactly `List.filter` of the unfiltered natural endpoints by "not currently
being replaced" — the order-preserving subsequence obtained by deleting the
being-replaced addresses — and in particular a sublist of the unfiltered
list, so surviving replicas keep their relative priority order. -/
theorem get_natural_endpoints_filter_preserves_order
    (cne : Token → TokenMetadata → List Address) (allow_remove : Bool)
    (tm : TokenMetadata) (s : Strategy) (t : Token)
    (h1 : tm.is_any_node_being_replaced = true) (h2 : allow_remove = true) :
    (get_natural_endpoints_without_node_being_replaced cne allow_remove tm s t).1 =
        (get_natural_endpoints cne tm s t).1.filter
          (fun a => !(tm.is_being_replaced a)) ∧
      List.Sublist
        (get_natural_endpoints_without_node_being_replaced cne allow_remove tm s t).1
        (get_natural_endpoints cne tm s t).1 := by
  unfold get_natural_endpoints_without_node_being_replaced
  rw [if_pos (by rw [h1, h2]; rfl)]
  exact ⟨rfl, List.filter_sublist _⟩

/-- C10 witness: the filtered list on the concrete replacement ring is the
filtered subsequence `[1]` of `[0, 1]`. -/
theorem get_natural_endpoints_filter_preserves_order_witness :
    (get_natural_endpoints_without_node_being_replaced pair_policy true
        tm_repl (fresh_strategy 1) 10).1 =
      (get_natural_endpoints pair_policy tm_repl (fresh_strategy 1) 10).1.filter
        (fun a => !(tm_repl.is_being_replaced a)) ∧
      List.Sublist
        (get_natural_endpoints_without_node_being_replaced pair_policy true
          tm_repl (fresh_strategy 1) 10).1
        (get_natural_endpoints pair_policy tm_repl (fresh_strategy 1) 10).1 :=
  get_natural_endpoints_filter_preserves_order pair_policy true tm_repl
    (fresh_strategy 1) 10 (by decide) rfl

/-! ### C9: replication-factor validation -/

/-- C9 (claim C9): a replication-factor string is accepted exactly when it
is nonempty, consists entirely of decimal digits, and its value parses as a
non-negative `long` (`std::stol` succeeds, i.e. the value is at most
`LONG_MAX`); in particular "3" is accepted while "-1", "abc" and "" are
rejected with a configuration error (`false`). -/
theorem validate_replication_factor_spec :
    (∀ rf : List Char, validate_replication_factor rf = true ↔
        (rf ≠ [] ∧ (∀ c ∈ rf, c.isDigit = true) ∧ digits_val rf ≤ long_max)) ∧
      validate_replication_factor ['3'] = true ∧
      validate_replication_factor ['-', '1'] = false ∧
      validate_replication_factor ['a', 'b', 'c'] = false ∧
      validate_replication_factor [] = false := by
  refine ⟨?_, by decide, by decide, by decide, by decide⟩
  intro rf
  constructor
  · intro h
    by_cases he : (rf.isEmpty || rf.any fun c => !c.isDigit) = true
    · rw [validate_replication_factor, if_pos he] at h
      exact absurd h (by simp)
    · rw [validate_replication_factor, if_neg he] at h
      rw [Bool.or_eq_true, not_or] at he
      obtain ⟨he1, he2⟩ := he
      refine ⟨?_, ?_, ?_⟩
      · intro hnil
        rw [hnil] at he1
        exact he1 rfl
      · intro c hc
        by_contra hcd
        exact he2 (List.any_eq_true.mpr ⟨c, hc, by simp [hcd]⟩)
      · simpa [stol_succeeds] using h
  · rintro ⟨h1, h2, h3⟩
    have he1 : rf.isEmpty = false := by
      cases rf with
      | nil => exact absurd rfl h1
      | cons c cs => rfl
    have he2 : (rf.any fun c => !c.isDigit) = false := by
      rw [← Bool.not_eq_true, List.any_eq_true]
      rintro ⟨c, hc, hcd⟩
      rw [Bool.not_eq_true'] at hcd
      exact absurd (h2 c hc) (by simp [hcd])
    rw [validate_replication_factor, if_neg (by simp [he1, he2])]
    simpa [stol_succeeds] using h3

/-! ### Range algebra: structure of the scan -/

theorem mem_of_head? {α : Type} {l : List α} {a : α} (h : l.head? = some a) :
    a ∈ l := by
  cases l with
  | nil => simp at h
  | cons b bs =>
    rw [List.head?_cons] at h
    cases h
    exact List.mem_cons_self _ _

theorem mem_of_getLast? {α : Type} {l : List α} {a : α} (h : l.getLast? = some a) :
    a ∈ l := by
  induction l with
  | nil => simp at h
  | cons b bs ih =>
    cases bs with
    | nil =>
      simp only [List.getLast?_singleton] at h
      injection h with h2
      rw [h2]
      exact List.mem_cons_self _ _
    | cons c cs =>
      rw [List.getLast?_cons_cons] at h
      exact List.mem_cons_of_mem _ (ih h)

theorem le_lastToken : ∀ (ts : List Token) (p : Token),
    List.Chain' (· < ·) (p :: ts) → p ≤ lastToken p ts := by
  intro ts
  induction ts with
  | nil => intro p _; exact le_refl _
  | cons t ts' ih =>
    intro p h
    rw [List.chain'_cons] at h
    have h2 := ih t h.2
    exact le_of_lt (lt_of_lt_of_le h.1 h2)

theorem mem_le_lastToken : ∀ (ts : List Token) (p : Token),
    List.Chain' (· < ·) (p :: ts) → ∀ t ∈ ts, t ≤ lastToken p ts := by
  intro ts
  induction ts with
  | nil => intro p _ t ht; simp at ht
  | cons u ts' ih =>
    intro p h t ht
    rw [List.chain'_cons] at h
    show t ≤ lastToken u ts'
    rcases List.mem_cons.mp ht with rfl | ht'
    · exact le_lastToken ts' t h.2
    · exact ih u h.2 t ht'

theorem lt_of_chain'_mem : ∀ (ts : List Token) (p : Token),
    List.Chain' (· < ·) (p :: ts) → ∀ t ∈ ts, p < t := by
  intro ts
  induction ts with
  | nil => intro p _ t ht; simp at ht
  | cons u ts' ih =>
    intro p h t ht
    rw [List.chain'_cons] at h
    rcases List.mem_cons.mp ht with rfl | ht'
    · exact h.1
    · exact lt_trans h.1 (ih u h.2 t ht')

theorem scan_wrap_aux (emit : Token → Bool) :
    ∀ (ts : List Token) (prev e s : Token) (mid : List TokenRange),
      List.Chain' (· < ·) (prev :: ts) →
      (ts.foldl (scan_step emit) (prev,
          TokenRange.mk none (some e) :: (mid ++ [TokenRange.mk (some s) none]))).2 =
        TokenRange.mk none (some e) ::
          ((mid ++ boundedRanges prev emit ts) ++ [TokenRange.mk (some s) none]) := by
  intro ts
  induction ts with
  | nil => intro prev e s mid _; simp [boundedRanges]
  | cons t ts' ih =>
    intro prev e s mid h
    rw [List.chain'_cons] at h
    rw [List.foldl_cons]
    by_cases hemit : emit t = true
    · have hins : insert_token_range_to_sorted_container_while_unwrapping prev t
          (TokenRange.mk none (some e) :: (mid ++ [TokenRange.mk (some s) none])) =
          TokenRange.mk none (some e) ::
            ((mid ++ [TokenRange.mk (some prev) (some t)]) ++ [TokenRange.mk (some s) none]) := by
        have hre : (TokenRange.mk none (some e) :: (mid ++ [TokenRange.mk (some s) none])) =
            (TokenRange.mk none (some e) :: mid) ++ [TokenRange.mk (some s) none] := by
          simp
        have hdrop : (TokenRange.mk none (some e) ::
            (mid ++ [TokenRange.mk (some s) none])).dropLast =
            TokenRange.mk none (some e) :: mid := by
          rw [hre, List.dropLast_concat]
        unfold insert_token_range_to_sorted_container_while_unwrapping
        rw [if_pos h.1, hdrop, hre, List.getLast?_concat]
        simp
      simp only [scan_step, hemit, if_true, hins]
      rw [ih t e s (mid ++ [TokenRange.mk (some prev) (some t)]) h.2]
      simp [boundedRanges, hemit, List.append_assoc]
    · simp only [scan_step, hemit, if_false, Bool.false_eq_true]
      rw [ih t e s mid h.2]
      simp [boundedRanges, hemit]

theorem scan_nowrap_aux (emit : Token → Bool) :
    ∀ (ts : List Token) (prev : Token) (acc : List TokenRange),
      List.Chain' (· < ·) (prev :: ts) →
      (∀ r, acc.getLast? = some r → r.last ≠ none) →
      (ts.foldl (scan_step emit) (prev, acc)).2 = acc ++ boundedRanges prev emit ts := by
  intro ts
  induction ts with
  | nil => intro prev acc _ _; simp [boundedRanges]
  | cons t ts' ih =>
    intro prev acc h hacc
    rw [List.chain'_cons] at h
    rw [List.foldl_cons]
    by_cases hemit : emit t = true
    · have hins : insert_token_range_to_sorted_container_while_unwrapping prev t acc =
          acc ++ [TokenRange.mk (some prev) (some t)] := by
        unfold insert_token_range_to_sorted_container_while_unwrapping
        rw [if_pos h.1]
        cases hg : acc.getLast? with
        | none => rfl
        | some r => simp [hacc r hg]
      simp only [scan_step, hemit, if_true, hins]
      rw [ih t (acc ++ [TokenRange.mk (some prev) (some t)]) h.2 ?_]
      · simp [boundedRanges, hemit, List.append_assoc]
      · intro r hr
        rw [List.getLast?_concat] at hr
        injection hr with hr2
        rw [← hr2]
        simp
    · simp only [scan_step, hemit, if_false, Bool.false_eq_true]
      rw [ih t acc h.2 hacc]
      simp [boundedRanges, hemit]

theorem range_scan_closed (emit : Token → Bool) (t1 : Token) (ts : List Token)
    (h : List.Chain' (· < ·) (t1 :: ts)) :
    range_scan emit (lastToken t1 ts) (t1 :: ts) =
      if emit t1 then
        TokenRange.mk none (some t1) ::
          (boundedRanges t1 emit ts ++ [TokenRange.mk (some (lastToken t1 ts)) none])
      else boundedRanges t1 emit ts := by
  unfold range_scan
  rw [List.foldl_cons]
  have hback : ¬ lastToken t1 ts < t1 := not_lt.mpr (le_lastToken ts t1 h)
  by_cases hemit : emit t1 = true
  · have hins : insert_token_range_to_sorted_container_while_unwrapping
        (lastToken t1 ts) t1 [] =
        [TokenRange.mk none (some t1), TokenRange.mk (some (lastToken t1 ts)) none] := by
      unfold insert_token_range_to_sorted_container_while_unwrapping
      rw [if_neg hback]
      rfl
    simp only [scan_step, hemit, if_true, hins]
    have hw := scan_wrap_aux emit ts t1 t1 (lastToken t1 ts) [] h
    simpa using hw
  · simp only [scan_step, hemit, if_false, Bool.false_eq_true]
    have hn := scan_nowrap_aux emit ts t1 [] h (fun r hr => by simp at hr)
    simpa using hn

theorem boundedRanges_mem (emit : Token → Bool) :
    ∀ (ts : List Token) (prev : Token), List.Chain' (· < ·) (prev :: ts) →
      ∀ r ∈ boundedRanges prev emit ts,
        ∃ p t, r = TokenRange.mk (some p) (some t) ∧ prev ≤ p ∧ p < t ∧ t ∈ ts := by
  intro ts
  induction ts with
  | nil => intro prev _ r hr; simp [boundedRanges] at hr
  | cons t ts' ih =>
    intro prev h r hr
    rw [List.chain'_cons] at h
    simp only [boundedRanges] at hr
    rcases List.mem_append.mp hr with hr1 | hr2
    · by_cases hemit : emit t = true
      · rw [if_pos hemit] at hr1
        simp only [List.mem_singleton] at hr1
        exact ⟨prev, t, hr1, le_refl _, h.1, List.mem_cons_self _ _⟩
      · simp [hemit] at hr1
    · obtain ⟨p, t', hrt, hp, hpt, ht'⟩ := ih t h.2 r hr2
      exact ⟨p, t', hrt, le_of_lt (lt_of_lt_of_le h.1 hp), hpt,
        List.mem_cons_of_mem _ ht'⟩

theorem boundedRanges_end_mem (emit : Token → Bool) :
    ∀ (ts : List Token) (prev t : Token), t ∈ ts → emit t = true →
      ∃ r ∈ boundedRanges prev emit ts, r.last = some t := by
  intro ts
  induction ts with
  | nil => intro prev t ht _; simp at ht
  | cons u ts' ih =>
    intro prev t ht hemit
    simp only [boundedRanges]
    rcases List.mem_cons.mp ht with rfl | ht'
    · refine ⟨TokenRange.mk (some prev) (some t), ?_, rfl⟩
      simp [hemit]
    · obtain ⟨r, hr, hrl⟩ := ih u t ht' hemit
      exact ⟨r, List.mem_append_right _ hr, hrl⟩

theorem boundedRanges_chain (emit : Token → Bool) :
    ∀ (ts : List Token) (prev : Token), List.Chain' (· < ·) (prev :: ts) →
      List.Chain' (fun a b => startLt a.start b.start) (boundedRanges prev emit ts) := by
  intro ts
  induction ts with
  | nil => intro prev _; simp [boundedRanges]
  | cons t ts' ih =>
    intro prev h
    rw [List.chain'_cons] at h
    simp only [boundedRanges]
    by_cases hemit : emit t = true
    · simp only [if_pos hemit, List.singleton_append]
      rw [List.chain'_cons']
      refine ⟨?_, ih t h.2⟩
      intro y hy
      have hym : y ∈ boundedRanges t emit ts' := mem_of_head? hy
      obtain ⟨p, t', hyt, hp, _, _⟩ := boundedRanges_mem emit ts' t h.2 y hym
      rw [hyt]
      exact lt_of_lt_of_le h.1 hp
    · simp only [if_neg hemit, List.nil_append]
      exact ih t h.2

theorem range_scan_sorted (emit : Token → Bool) (t1 : Token) (ts : List Token)
    (h : List.Chain' (· < ·) (t1 :: ts)) :
    RangeListSorted (range_scan emit (lastToken t1 ts) (t1 :: ts)) ∧
      WrapShape (range_scan emit (lastToken t1 ts) (t1 :: ts)) := by
  rw [range_scan_closed emit t1 ts h]
  by_cases hemit : emit t1 = true
  · rw [if_pos hemit]
    constructor
    · unfold RangeListSorted
      rw [List.chain'_cons']
      constructor
      · intro y hy
        have hym : y ∈ boundedRanges t1 emit ts ++
            [TokenRange.mk (some (lastToken t1 ts)) none] := mem_of_head? hy
        rcases List.mem_append.mp hym with hyb | hyl
        · obtain ⟨p, t', hyt, _, _, _⟩ := boundedRanges_mem emit ts t1 h y hyb
          rw [hyt]
          trivial
        · rw [List.mem_singleton] at hyl
          rw [hyl]
          trivial
      · apply List.Chain'.append (boundedRanges_chain emit ts t1 h)
        · exact List.chain'_singleton _
        · intro x hx y hy
          have hxm : x ∈ boundedRanges t1 emit ts := mem_of_getLast? hx
          obtain ⟨p, t', hxt, hp, hpt, ht'⟩ := boundedRanges_mem emit ts t1 h x hxm
          have hy' : TokenRange.mk (some (lastToken t1 ts)) none = y := by
            simpa using hy
          rw [hxt, ← hy']
          exact lt_of_lt_of_le hpt (mem_le_lastToken ts t1 h t' ht')
    · intro _
      refine ⟨t1, lastToken t1 ts, boundedRanges t1 emit ts, rfl, ?_⟩
      intro r hr
      obtain ⟨p, t', hrt, _, _, _⟩ := boundedRanges_mem emit ts t1 h r hr
      rw [hrt]
      exact ⟨Option.some_ne_none _, Option.some_ne_none _⟩
  · rw [if_neg hemit]
    constructor
    · exact boundedRanges_chain emit ts t1 h
    · intro hex
      obtain ⟨r, hr, hform⟩ := hex
      obtain ⟨p, t', hrt, _, _, _⟩ := boundedRanges_mem emit ts t1 h r hr
      rw [hrt] at hform
      rcases hform with h1 | h1 <;> simp at h1

/-! ### C2: sortedness and the wrap shape -/

/-- C2 (claim C2): every collection returned by `get_ranges` or
`get_primary_ranges` on a ring with strictly sorted tokens is sorted by
start bound, and whenever it includes a wraparound boundary the wrapped
range is stored as exactly the two unbounded pieces, `(-infinity, e]` first
(before all bounded pieces) and `(s, +infinity)` last. -/
theorem ranges_sorted_and_wrap_shape (cne : Token → TokenMetadata → List Address)
    (ep : Address) (tm : TokenMetadata)
    (h : List.Chain' (· < ·) tm.sorted_tokens) :
    (∀ l, get_ranges cne ep tm = some l → RangeListSorted l ∧ WrapShape l) ∧
      (∀ l, get_primary_ranges cne ep tm = some l → RangeListSorted l ∧ WrapShape l) := by
  cases htoks : tm.sorted_tokens with
  | nil =>
    constructor
    · intro l hl
      unfold get_ranges at hl
      rw [htoks] at hl
      simp at hl
    · intro l hl
      unfold get_primary_ranges at hl
      rw [htoks] at hl
      simp at hl
  | cons t1 ts =>
    rw [htoks] at h
    constructor <;> intro l hl
    · unfold get_ranges at hl
      rw [htoks] at hl
      simp only [Option.some.injEq] at hl
      rw [← hl]
      exact range_scan_sorted _ t1 ts h
    · unfold get_primary_ranges at hl
      rw [htoks] at hl
      simp only [Option.some.injEq] at hl
      rw [← hl]
      exact range_scan_sorted _ t1 ts h

theorem tm_ring_chain : List.Chain' (· < ·) tm_ring.sorted_tokens := by
  show List.Chain' (· < ·) [10, 50, 90]
  norm_num [List.chain'_cons, List.chain'_singleton]

/-- C2 witness: the collection computed for node 0 on the concrete ring
10 < 50 < 90 is sorted and has the wrap shape. -/
theorem ranges_sorted_and_wrap_shape_witness :
    RangeListSorted [⟨none, some 10⟩, ⟨some 90, none⟩] ∧
      WrapShape [⟨none, some 10⟩, ⟨some 90, none⟩] :=
  (ranges_sorted_and_wrap_shape owner_policy 0 tm_ring tm_ring_chain).1
    [⟨none, some 10⟩, ⟨some 90, none⟩] (by decide)

theorem boundedRanges_mem_emit (emit : Token → Bool) :
    ∀ (ts : List Token) (prev : Token), ∀ r ∈ boundedRanges prev emit ts,
      ∃ t, r.last = some t ∧ t ∈ ts ∧ emit t = true := by
  intro ts
  induction ts with
  | nil => intro prev r hr; simp [boundedRanges] at hr
  | cons u ts' ih =>
    intro prev r hr
    simp only [boundedRanges] at hr
    rcases List.mem_append.mp hr with hr1 | hr2
    · by_cases hemit : emit u = true
      · rw [if_pos hemit] at hr1
        rw [List.mem_singleton] at hr1
        exact ⟨u, by rw [hr1], List.mem_cons_self _ _, hemit⟩
      · simp [hemit] at hr1
    · obtain ⟨t, hlast, hts, he⟩ := ih u r hr2
      exact ⟨t, hlast, List.mem_cons_of_mem _ hts, he⟩

/-! ### C5: a primary range is emitted exactly for the first replica -/

/-- C5 (claim C5): on a ring with strictly sorted tokens, for every ring
token `t`, `get_primary_ranges ep` contains a range whose inclusive end is
`t` exactly when `ep` is the first entry (index 0) of the natural endpoint
list computed for `t`; tokens for which `ep` is a non-primary replica, or
no replica at all, contribute no range. -/
theorem primary_ranges_iff_first (cne : Token → TokenMetadata → List Address)
    (ep : Address) (tm : TokenMetadata)
    (h : List.Chain' (· < ·) tm.sorted_tokens) :
    ∀ l, get_primary_ranges cne ep tm = some l →
      ∀ t ∈ tm.sorted_tokens,
        ((∃ r ∈ l, r.last = some t) ↔ (cne t tm).head? = some ep) := by
  intro l hl t ht
  cases htoks : tm.sorted_tokens with
  | nil =>
    rw [htoks] at ht
    simp at ht
  | cons t1 ts =>
    rw [htoks] at h ht
    unfold get_primary_ranges at hl
    rw [htoks] at hl
    simp only [Option.some.injEq] at hl
    subst hl
    rw [range_scan_closed (fun tok => (cne tok tm).head? == some ep) t1 ts h]
    by_cases hemit1 : ((cne t1 tm).head? == some ep) = true
    · simp only [hemit1, if_true]
      rcases List.mem_cons.mp ht with rfl | hts
      · constructor
        · intro _
          exact beq_iff_eq.mp hemit1
        · intro _
          exact ⟨⟨none, some t⟩, List.mem_cons_self _ _, rfl⟩
      · constructor
        · rintro ⟨r, hr, hrl⟩
          rcases List.mem_cons.mp hr with rfl | hr2
          · injection hrl with h2
            exact absurd h2 (ne_of_lt (lt_of_chain'_mem ts t1 h t hts))
          · rcases List.mem_append.mp hr2 with hrb | hrlast
            · obtain ⟨t', hlast, _, hemit'⟩ :=
                boundedRanges_mem_emit _ ts t1 r hrb
              rw [hlast] at hrl
              injection hrl with h2
              rw [← h2]
              exact beq_iff_eq.mp hemit'
            · rw [List.mem_singleton] at hrlast
              rw [hrlast] at hrl
              exact absurd hrl (by simp)
        · intro hrhs
          obtain ⟨r, hr, hrl⟩ := boundedRanges_end_mem
            (fun tok => (cne tok tm).head? == some ep) ts t1 t hts
            (by exact beq_iff_eq.mpr hrhs)
          exact ⟨r, List.mem_cons_of_mem _ (List.mem_append_left _ hr), hrl⟩
    · simp only [Bool.not_eq_true] at hemit1
      simp only [hemit1, Bool.false_eq_true, if_false]
      rcases List.mem_cons.mp ht with rfl | hts
      · constructor
        · rintro ⟨r, hr, hrl⟩
          obtain ⟨t', hlast, ht's, _⟩ := boundedRanges_mem_emit _ ts t r hr
          rw [hlast] at hrl
          injection hrl with h2
          rw [h2] at ht's
          exact absurd (lt_of_chain'_mem ts t h t ht's) (lt_irrefl t)
        · intro hrhs
          have hbe : ((cne t tm).head? == some ep) = true := beq_iff_eq.mpr hrhs
          rw [hemit1] at hbe
          exact absurd hbe Bool.false_ne_true
      · constructor
        · rintro ⟨r, hr, hrl⟩
          obtain ⟨t', hlast, _, hemit'⟩ := boundedRanges_mem_emit _ ts t1 r hr
          rw [hlast] at hrl
          injection hrl with h2
          rw [← h2]
          exact beq_iff_eq.mp hemit'
        · intro hrhs
          exact boundedRanges_end_mem
            (fun tok => (cne tok tm).head? == some ep) ts t1 t hts
            (by exact beq_iff_eq.mpr hrhs)

/-- C5 witness: on the concrete ring, node 1 is primary exactly for token
50, and the returned collection `[(10, 50]]` has a range ending at 50. -/
theorem primary_ranges_iff_first_witness :
    (∃ r ∈ [TokenRange.mk (some 10) (some 50)], r.last = some 50) ↔
      (owner_policy 50 tm_ring).head? = some 1 :=
  primary_ranges_iff_first owner_policy 1 tm_ring tm_ring_chain
    [⟨some 10, some 50⟩] (by decide) 50 (by decide)

/-! ### C6: counting covers -/

theorem boundedRanges_count (emit : Token → Bool) (x : Token) :
    ∀ (ts : List Token) (prev : Token),
      (boundedRanges prev emit ts).countP (fun r => containsTok r x) =
        adjCovered emit x prev ts := by
  intro ts
  induction ts with
  | nil => intro prev; rfl
  | cons t ts' ih =>
    intro prev
    simp only [boundedRanges, adjCovered]
    rw [List.countP_append, ih t]
    congr 1
    by_cases hemit : emit t = true
    · rw [if_pos hemit]
      by_cases h1 : prev < x
      · by_cases h2 : x ≤ t
        · simp [containsTok, h1, h2, hemit]
        · simp [containsTok, h1, h2, hemit]
      · simp [containsTok, h1, hemit]
    · rw [if_neg hemit]
      simp [hemit]

theorem adjCovered_out (emit : Token → Bool) (x : Token) :
    ∀ (ts : List Token) (p : Token), List.Chain' (· < ·) (p :: ts) →
      (x ≤ p ∨ lastToken p ts < x) → adjCovered emit x p ts = 0 := by
  intro ts
  induction ts with
  | nil => intro p _ _; rfl
  | cons t ts' ih =>
    intro p h hout
    rw [List.chain'_cons] at h
    show (if emit t = true ∧ p < x ∧ x ≤ t then 1 else 0) + adjCovered emit x t ts' = 0
    have h1 : ¬(emit t = true ∧ p < x ∧ x ≤ t) := by
      rintro ⟨_, hpx, hxt⟩
      rcases hout with hxp | hlx
      · exact absurd (lt_of_le_of_lt hxp hpx) (lt_irrefl x)
      · have hle : t ≤ lastToken t ts' := le_lastToken ts' t h.2
        exact absurd (le_trans hxt hle) (not_le.mpr hlx)
    have h2 : adjCovered emit x t ts' = 0 := by
      apply ih t h.2
      rcases hout with hxp | hlx
      · exact Or.inl (le_trans hxp (le_of_lt h.1))
      · exact Or.inr hlx
    rw [if_neg h1, h2]

theorem adjCovered_in (x : Token) :
    ∀ (ts : List Token) (p : Token), List.Chain' (· < ·) (p :: ts) →
      p < x → x ≤ lastToken p ts →
      ∃ t0 ∈ ts, ∀ emit : Token → Bool,
        adjCovered emit x p ts = if emit t0 = true then 1 else 0 := by
  intro ts
  induction ts with
  | nil =>
    intro p _ hpx hxl
    exact absurd (lt_of_lt_of_le hpx hxl) (lt_irrefl p)
  | cons t ts' ih =>
    intro p h hpx hxl
    rw [List.chain'_cons] at h
    by_cases hxt : x ≤ t
    · refine ⟨t, List.mem_cons_self _ _, ?_⟩
      intro emit
      show (if emit t = true ∧ p < x ∧ x ≤ t then 1 else 0) + adjCovered emit x t ts' = _
      rw [adjCovered_out emit x ts' t h.2 (Or.inl hxt)]
      by_cases he : emit t = true
      · simp [he, hpx, hxt]
      · simp [he, hpx, hxt]
    · obtain ⟨t0, ht0, hall⟩ := ih t h.2 (not_le.mp hxt) hxl
      refine ⟨t0, List.mem_cons_of_mem _ ht0, ?_⟩
      intro emit
      show (if emit t = true ∧ p < x ∧ x ≤ t then 1 else 0) + adjCovered emit x t ts' = _
      rw [if_neg (by rintro ⟨_, _, hc⟩; exact hxt hc), hall emit]
      simp

theorem ring_cover (x : Token) (ts : List Token) (t1 : Token)
    (h : List.Chain' (· < ·) (t1 :: ts)) :
    ∃ t0 ∈ t1 :: ts, ∀ emit : Token → Bool,
      ((if emit t1 = true then
          ((if x ≤ t1 then 1 else 0) + (if lastToken t1 ts < x then 1 else 0))
        else 0) + adjCovered emit x t1 ts) = if emit t0 = true then 1 else 0 := by
  by_cases hin : t1 < x ∧ x ≤ lastToken t1 ts
  · obtain ⟨t0, ht0, hall⟩ := adjCovered_in x ts t1 h hin.1 hin.2
    refine ⟨t0, List.mem_cons_of_mem _ ht0, ?_⟩
    intro emit
    rw [hall emit, if_neg (not_le.mpr hin.1), if_neg (not_lt.mpr hin.2)]
    simp
  · have hout : x ≤ t1 ∨ lastToken t1 ts < x := by
      rcases not_and_or.mp hin with h1 | h2
      · exact Or.inl (not_lt.mp h1)
      · exact Or.inr (not_le.mp h2)
    refine ⟨t1, List.mem_cons_self _ _, ?_⟩
    intro emit
    rw [adjCovered_out emit x ts t1 h hout]
    have hW : ((if x ≤ t1 then 1 else 0) + (if lastToken t1 ts < x then 1 else 0) : Nat) = 1 := by
      have hle : t1 ≤ lastToken t1 ts := le_lastToken ts t1 h
      rcases hout with h1 | h2
      · rw [if_pos h1, if_neg (not_lt.mpr (le_trans h1 hle))]
      · rw [if_neg (not_le.mpr (lt_of_le_of_lt hle h2)), if_pos h2]
    by_cases he : emit t1 = true
    · rw [if_pos he, if_pos he, hW]
    · rw [if_neg he, if_neg he]

theorem range_scan_count (emit : Token → Bool) (x : Token) (t1 : Token)
    (ts : List Token) (h : List.Chain' (· < ·) (t1 :: ts)) :
    coverCount (range_scan emit (lastToken t1 ts) (t1 :: ts)) x =
      (if emit t1 = true then
          ((if x ≤ t1 then 1 else 0) + (if lastToken t1 ts < x then 1 else 0))
        else 0) + adjCovered emit x t1 ts := by
  rw [coverCount, range_scan_closed emit t1 ts h]
  by_cases he : emit t1 = true
  · rw [if_pos he, if_pos he]
    rw [List.countP_cons, List.countP_append, List.countP_cons, List.countP_nil]
    rw [boundedRanges_count emit x ts t1]
    by_cases h1 : x ≤ t1 <;> by_cases h2 : lastToken t1 ts < x <;>
      simp [containsTok, h1, h2] <;> omega
  · rw [if_neg he, if_neg he]
    rw [boundedRanges_count emit x ts t1]
    simp

/-- C6 (claim C6): when every ring token has a nonempty endpoint list, each
token `x` of the whole token space is covered by exactly one primary range
of exactly one node: there is a node `ep0` such that the collection returned
by `get_primary_ranges` contains exactly one range containing `x` for
`ep0` and none for any other node.  This yields both per-node pairwise
disjointness (`coverCount` is always at most one) and a gap-free,
overlap-free cover of the token space across all nodes. -/
theorem primary_ranges_partition (cne : Token → TokenMetadata → List Address)
    (tm : TokenMetadata)
    (hchain : List.Chain' (· < ·) tm.sorted_tokens)
    (hne : tm.sorted_tokens ≠ [])
    (heps : ∀ t ∈ tm.sorted_tokens, (cne t tm).head? ≠ none)
    (x : Token) :
    ∃ ep0 : Address, ∀ (ep : Address) (l : List TokenRange),
      get_primary_ranges cne ep tm = some l →
      coverCount l x = if ep = ep0 then 1 else 0 := by
  cases htoks : tm.sorted_tokens with
  | nil => exact absurd htoks hne
  | cons t1 ts =>
    rw [htoks] at hchain heps
    obtain ⟨t0, ht0, hall⟩ := ring_cover x ts t1 hchain
    cases hh0 : (cne t0 tm).head? with
    | none => exact absurd hh0 (heps t0 ht0)
    | some ep0 =>
      refine ⟨ep0, ?_⟩
      intro ep l hl
      unfold get_primary_ranges at hl
      rw [htoks] at hl
      simp only [Option.some.injEq] at hl
      subst hl
      rw [range_scan_count (fun tok => (cne tok tm).head? == some ep) x t1 ts hchain]
      rw [hall (fun tok => (cne tok tm).head? == some ep)]
      have hbeq : (((cne t0 tm).head? == some ep) = true) ↔ ep = ep0 := by
        rw [hh0, beq_iff_eq]
        constructor
        · intro hx2
          injection hx2 with hx3
          exact hx3.symm
        · intro hx2
          rw [hx2]
      by_cases hee : ep = ep0
      · rw [if_pos hee, if_pos (by exact hbeq.mpr hee)]
      · rw [if_neg hee, if_neg (by exact fun hc => hee (hbeq.mp hc))]

/-- C6 witness: on the concrete ring 10 < 50 < 90 with single-replica
ownership, token 42 is covered exactly once overall (by node 1's range
`(10, 50]`). -/
theorem primary_ranges_partition_witness :
    ∃ ep0 : Address, ∀ (ep : Address) (l : List TokenRange),
      get_primary_ranges owner_policy ep tm_ring = some l →
      coverCount l 42 = if ep = ep0 then 1 else 0 :=
  primary_ranges_partition owner_policy tm_ring tm_ring_chain (by decide)
    (by decide) 42

/-! ### C8: empty ring and empty endpoint lists -/

theorem scan_no_emit (emit : Token → Bool) :
    ∀ (toks : List Token) (prev : Token) (acc : List TokenRange),
      (∀ t ∈ toks, emit t = false) →
      (toks.foldl (scan_step emit) (prev, acc)).2 = acc := by
  intro toks
  induction toks with
  | nil => intro prev acc _; rfl
  | cons t ts ih =>
    intro prev acc hall
    rw [List.foldl_cons]
    have he : emit t = false := hall t (List.mem_cons_self _ _)
    simp only [scan_step, he, Bool.false_eq_true, if_false]
    exact ih t acc (fun u hu => hall u (List.mem_cons_of_mem _ hu))

/-- C8 counterexample (claim C8): the claim fails as stated.  With a policy
whose endpoint list is empty for every token of a nonempty ring — ownership
expected but absent — `get_primary_ranges` and `get_ranges` do not abort:
they return normally with the silently empty collection `some []`. -/
theorem empty_endpoints_silent :
    get_primary_ranges empty_policy 0 tm_ring = some [] ∧
      get_ranges empty_policy 0 tm_ring = some [] := by decide

/-- C8 (amended): on an empty ring, `get_ranges` and `get_primary_ranges`
have no defined result — the C++ reads `sorted_tokens().back()` out of
bounds (undefined behaviour, modelled as `none`) — and a token whose
endpoint list is empty is silently skipped, contributing no range: when no
token emits, both operations return normally with an empty collection
rather than propagating an error. -/
theorem ranges_empty_ring_and_empty_endpoints
    (cne : Token → TokenMetadata → List Address) (ep : Address)
    (tm : TokenMetadata) :
    (tm.sorted_tokens = [] →
      get_ranges cne ep tm = none ∧ get_primary_ranges cne ep tm = none) ∧
      ((∀ t ∈ tm.sorted_tokens, cne t tm = []) → tm.sorted_tokens ≠ [] →
        get_ranges cne ep tm = some [] ∧
          get_primary_ranges cne ep tm = some []) := by
  constructor
  · intro hnil
    unfold get_ranges get_primary_ranges
    rw [hnil]
    exact ⟨rfl, rfl⟩
  · intro hall hne
    cases htoks : tm.sorted_tokens with
    | nil => exact absurd htoks hne
    | cons t1 ts =>
      unfold get_ranges get_primary_ranges
      rw [htoks]
      have hemit1 : ∀ t ∈ t1 :: ts, ((cne t tm).contains ep) = false := by
        intro t ht
        rw [hall t (by rw [htoks]; exact ht)]
        rfl
      have hemit2 : ∀ t ∈ t1 :: ts, ((cne t tm).head? == some ep) = false := by
        intro t ht
        rw [hall t (by rw [htoks]; exact ht)]
        rfl
      have h1 : range_scan (fun tok => (cne tok tm).contains ep)
          (lastToken t1 ts) (t1 :: ts) = [] :=
        scan_no_emit (fun tok => (cne tok tm).contains ep) (t1 :: ts)
          (lastToken t1 ts) [] (fun t ht => hemit1 t ht)
      have h2 : range_scan (fun tok => (cne tok tm).head? == some ep)
          (lastToken t1 ts) (t1 :: ts) = [] :=
        scan_no_emit (fun tok => (cne tok tm).head? == some ep) (t1 :: ts)
          (lastToken t1 ts) [] (fun t ht => hemit2 t ht)
      constructor
      · show some (range_scan (fun tok => (cne tok tm).contains ep)
            (lastToken t1 ts) (t1 :: ts)) = some []
        rw [h1]
      · show some (range_scan (fun tok => (cne tok tm).head? == some ep)
            (lastToken t1 ts) (t1 :: ts)) = some []
        rw [h2]

/-- C8 witness: the empty ring yields no defined result for either range
computation. -/
theorem ranges_empty_ring_witness :
    get_ranges owner_policy 0 tm_empty = none ∧
      get_primary_ranges owner_policy 0 tm_empty = none :=
  (ranges_empty_ring_and_empty_endpoints owner_policy 0 tm_empty).1 rfl

/-! ### C7: pending-range simulation leaves the live ring unchanged -/

theorem get_primary_ranges_for_tokens_eq (tm1 tm2 : TokenMetadata)
    (h : tm1.tokens = tm2.tokens) (t : Token) :
    tm1.get_primary_ranges_for t = tm2.get_primary_ranges_for t := by
  unfold TokenMetadata.get_primary_ranges_for
  rw [show tm1.sorted_tokens = tm2.sorted_tokens from by
    unfold TokenMetadata.sorted_tokens
    rw [h]]

theorem get_address_ranges_tokens_eq (cne : Token → TokenMetadata → List Address)
    (tm1 tm2 : TokenMetadata) (hcne : ∀ t, cne t tm1 = cne t tm2)
    (h : tm1.tokens = tm2.tokens) :
    get_address_ranges cne tm1 = get_address_ranges cne tm2 := by
  unfold get_address_ranges
  have hs : tm1.sorted_tokens = tm2.sorted_tokens := by
    unfold TokenMetadata.sorted_tokens
    rw [h]
  rw [hs]
  congr 1
  funext t
  rw [hcne t, get_primary_ranges_for_tokens_eq tm1 tm2 h t]

/-- C7 (claim C7): the pending-range simulation is pure with respect to the
live ring: the ring the caller holds after the call is exactly the input
ring (same version counter, same token set), and the result is exactly the
collection of ranges attributed to the pending address in the simulated
ring whose token map is the live token map with the pending tokens inserted
for the pending address — the simulated ring's version counter and
replacement state are irrelevant (only the token map is cloned), provided
the placement policy reads only the token map. -/
theorem get_pending_address_ranges_frame
    (cne : Token → TokenMetadata → List Address) (tm : TokenMetadata)
    (pending : List Token) (addr : Address)
    (hcne : ∀ (t : Token) (tma tmb : TokenMetadata),
      tma.tokens = tmb.tokens → cne t tma = cne t tmb) :
    (get_pending_address_ranges cne tm pending addr).2 = tm ∧
      (get_pending_address_ranges cne tm pending addr).2.ring_version =
        tm.ring_version ∧
      (get_pending_address_ranges cne tm pending addr).2.sorted_tokens =
        tm.sorted_tokens ∧
      ∀ (v : Nat) (repl : List Address),
        (get_pending_address_ranges cne tm pending addr).1 =
          ((get_address_ranges cne
              ⟨pending.foldl (fun acc t => insert_token acc t addr) tm.tokens,
                v, repl⟩).filter
            (fun z => z.1 == addr)).map Prod.snd := by
  refine ⟨rfl, rfl, rfl, ?_⟩
  intro v repl
  unfold get_pending_address_ranges
  have htoks : ((tm.clone_only_token_map).update_normal_tokens pending addr).tokens =
      (⟨pending.foldl (fun acc t => insert_token acc t addr) tm.tokens,
        v, repl⟩ : TokenMetadata).tokens := rfl
  rw [get_address_ranges_tokens_eq cne
    ((tm.clone_only_token_map).update_normal_tokens pending addr)
    ⟨pending.foldl (fun acc t => insert_token acc t addr) tm.tokens, v, repl⟩
    (fun t => hcne t _ _ htoks) htoks]

/-- C7 witness: simulating a join of node 7 with token 30 on the concrete
ring leaves the live ring intact and computes the attributed ranges on the
merged token map, whatever version or replacement state the simulated ring
carries. -/
theorem get_pending_address_ranges_frame_witness :
    (get_pending_address_ranges owner_policy tm_ring [30] 7).2 = tm_ring ∧
      (get_pending_address_ranges owner_policy tm_ring [30] 7).2.ring_version =
        tm_ring.ring_version ∧
      (get_pending_address_ranges owner_policy tm_ring [30] 7).2.sorted_tokens =
        tm_ring.sorted_tokens ∧
      ∀ (v : Nat) (repl : List Address),
        (get_pending_address_ranges owner_policy tm_ring [30] 7).1 =
          ((get_address_ranges owner_policy
              ⟨[(30 : Token)].foldl (fun acc t => insert_token acc t 7) tm_ring.tokens,
                v, repl⟩).filter
            (fun z => z.1 == 7)).map Prod.snd :=
  get_pending_address_ranges_frame owner_policy tm_ring [30] 7
    (fun t tma tmb h => by unfold owner_policy; rw [h])
